import Mathlib

/-!
Verification of the FPA optimizer core (`opytimizer/optimizers/fpa.py`).

Real numbers of the Python source are modelled as rationals (ℚ); the claims at
stake are algebraic relations between positions and fitnesses, not
floating-point facts.  Randomness (the module-level generators
`generate_uniform_random_number`, `generate_levy_distribution` and
`random.sample`) is modelled by an explicit oracle: every random quantity a
sweep may consume is a field of a `Draw` record supplied from outside, one
record per agent index.  `random.sample(agents, 2)` is modelled by `sample2`,
which turns two tape numbers into two distinct in-range indices exactly when
the population has at least two members, and fails (`none`) otherwise —
mirroring Python's `ValueError` when the sample size exceeds the population.
-/

/-- One candidate solution: the `Agent` of the source, restricted to the two
fields the optimizer touches (`position` and `fit`; the source's `_fit` is the
backing field of the `fit` property, so they are one value). -/
structure Agent where
  position : List ℚ
  fit : ℚ
deriving DecidableEq, Repr

/-- The random draws one agent's update may consume during a sweep:
`r` is the uniform switch draw, `levy` the Lévy-distributed deviates
(`generate_levy_distribution` returns one such value per dimension),
`eps` the uniform draw of local pollination, and `t1`, `t2` the tape
numbers that `sample2` turns into the two sampled indices. -/
structure Draw where
  r : ℚ
  levy : ℕ → ℚ
  eps : ℚ
  t1 : ℕ
  t2 : ℕ

/-- Component access with a default, used to state elementwise properties. -/
def nth (l : List ℚ) (k : ℕ) : ℚ := l.getD k 0

/-- Model of `random.sample(l, 2)`: two distinct indices are derived from the
tape numbers whenever the list has at least two members; a shorter list makes
the call fail (Python raises `ValueError`). -/
def sample2 {α : Type} (l : List α) (t1 t2 : ℕ) : Option (α × α) :=
  if h : 2 ≤ l.length then
    let i := t1 % l.length
    let j0 := t2 % (l.length - 1)
    let j := if j0 < i then j0 else j0 + 1
    some (l.get ⟨i, Nat.mod_lt _ (by omega)⟩,
          l.get ⟨j, by
            by_cases hc : j0 < i
            · simp only [j, if_pos hc]
              exact lt_of_lt_of_le hc (Nat.le_of_lt (Nat.mod_lt _ (by omega)))
            · simp only [j, if_neg hc]
              have h2 : t2 % (l.length - 1) < l.length - 1 := Nat.mod_lt t2 (by omega)
              omega⟩)
  else none

/-- `FPA._levy_flight`: `step` is the drawn Lévy vector (one deviate per
position component), `eta_step = step * eta`, `aux = eta_step * (best - pos)`,
and the result is `pos + aux`. -/
def levy_flight (agent_position best_position : List ℚ) (levy : ℕ → ℚ) (eta : ℚ) : List ℚ :=
  let step := (List.range agent_position.length).map levy
  let eta_step := step.map (fun x => x * eta)
  let aux := List.zipWith (fun x y => x * y) eta_step
    (List.zipWith (fun x y => x - y) best_position agent_position)
  List.zipWith (fun x y => x + y) agent_position aux

/-- `FPA._local_pollination`: sample two agents from `agents`, take the
difference of their positions scaled by `epsilon`, and add it to
`agent_position`.  Fails iff the sample fails. -/
def local_pollination (agents : List Agent) (agent_position : List ℚ)
    (eps : ℚ) (t1 t2 : ℕ) : Option (List ℚ) :=
  match sample2 agents t1 t2 with
  | none => none
  | some fl =>
    let sub := List.zipWith (fun x y => x - y) fl.1.position fl.2.position
    let sub_epsilon := sub.map (fun x => x * eps)
    some (List.zipWith (fun x y => x + y) agent_position sub_epsilon)

/-- The body of `FPA._update`'s loop for one agent: the switch draw picks the
branch, and either branch assigns `position + helper(position, …)` where the
helper already added `position` itself. -/
def updateAgent (agents : List Agent) (a : Agent) (best : Agent)
    (p eta : ℚ) (d : Draw) : Option (List ℚ) :=
  if d.r > p then
    some (List.zipWith (fun x y => x + y) a.position
      (levy_flight a.position best.position d.levy eta))
  else
    match local_pollination agents a.position d.eps d.t1 d.t2 with
    | none => none
    | some lp => some (List.zipWith (fun x y => x + y) a.position lp)

/-- `FPA._update`'s sweep, made explicit: agents are processed in index order
and each assignment replaces the agent in the **live** list, so later agents
(and in particular `local_pollination`'s sampling, which receives that live
list) see positions already rewritten earlier in the same sweep. -/
def updateSweep (p eta : ℚ) (best : Agent) (draws : ℕ → Draw) :
    ℕ → ℕ → List Agent → Option (List Agent)
  | _, 0, agents => some agents
  | i, fuel + 1, agents =>
    match agents[i]? with
    | none => some agents
    | some a =>
      match updateAgent agents a best p eta (draws i) with
      | none => none
      | some pos =>
        updateSweep p eta best draws (i + 1) fuel
          (agents.set i { a with position := pos })

/-- `FPA._update`: one sweep over the whole population. -/
def FPA.update (p eta : ℚ) (best : Agent) (draws : ℕ → Draw)
    (agents : List Agent) : Option (List Agent) :=
  updateSweep p eta best draws 0 agents.length agents

/-- The update sweep as the spec words it, for comparison with `updateSweep`:
positions referenced by other agents are read from the population snapshot at
the start of the iteration, so `local_pollination` samples from the original
list `orig` rather than from the partially rewritten population. -/
def updateSweepSnapshot (p eta : ℚ) (best : Agent) (draws : ℕ → Draw)
    (orig : List Agent) : ℕ → ℕ → List Agent → Option (List Agent)
  | _, 0, agents => some agents
  | i, fuel + 1, agents =>
    match agents[i]? with
    | none => some agents
    | some a =>
      match updateAgent orig a best p eta (draws i) with
      | none => none
      | some pos =>
        updateSweepSnapshot p eta best draws orig (i + 1) fuel
          (agents.set i { a with position := pos })

/-- The whole-population update under the spec's snapshot reading. -/
def updateSnapshot (p eta : ℚ) (best : Agent) (draws : ℕ → Draw)
    (agents : List Agent) : Option (List Agent) :=
  updateSweepSnapshot p eta best draws agents 0 agents.length agents

/-- The body of `FPA._evaluate`'s loop for one agent: compute the objective at
the current position, keep it only when it improves the agent's recorded `fit`,
then replace the best agent (by value — modelling `copy.deepcopy`) when the
agent's `fit` beats it. -/
def evaluateAgent (f : List ℚ → ℚ) (best a : Agent) : Agent × Agent :=
  let fit := f a.position
  let a1 := if fit < a.fit then { a with fit := fit } else a
  let best1 := if a1.fit < best.fit then a1 else best
  (a1, best1)

/-- `FPA._evaluate` over the agent list, threading the best agent through the
loop; returns the rewritten agents and the final best agent. -/
def evaluate (f : List ℚ → ℚ) : List Agent → Agent → List Agent × Agent
  | [], best => ([], best)
  | a :: rest, best =>
    let ab := evaluateAgent f best a
    let rb := evaluate f rest ab.2
    (ab.1 :: rb.1, rb.2)

/-- The `Space` of the source, restricted to the fields `FPA.run` reads:
agents, best agent, box bounds and the iteration budget. -/
structure SpaceS where
  agents : List Agent
  best_agent : Agent
  lb : List ℚ
  ub : List ℚ
  n_iterations : ℕ
deriving DecidableEq

/-- Modelled from the spec: `check_bound_limits` lives in
`opytimizer.utils.common`, which is not among the sources; per the spec it
clamps every agent's position component-wise into `[lb[i], ub[i]]`
(saturating clamp to the nearest bound). -/
def check_bound_limits (agents : List Agent) (lb ub : List ℚ) : List Agent :=
  agents.map (fun a =>
    { a with position :=
        List.zipWith (fun x bd => max bd.1 (min bd.2 x)) a.position (lb.zip ub) })

/-- `FPA._evaluate` applied to a space. -/
def evalSpace (f : List ℚ → ℚ) (s : SpaceS) : SpaceS :=
  let ab := evaluate f s.agents s.best_agent
  { s with agents := ab.1, best_agent := ab.2 }

/-- One iteration of `FPA.run`'s loop: update, clamp to bounds, re-evaluate —
in that order. -/
def runIteration (f : List ℚ → ℚ) (p eta : ℚ) (draw : ℕ → Draw)
    (s : SpaceS) : Option SpaceS :=
  match FPA.update p eta s.best_agent draw s.agents with
  | none => none
  | some ags =>
    some (evalSpace f { s with agents := check_bound_limits ags s.lb s.ub })

/-- The iteration loop of `FPA.run`: `t` is the iteration counter, the second
argument the number of iterations still to go. -/
def runLoop (f : List ℚ → ℚ) (p eta : ℚ) (draws : ℕ → ℕ → Draw) :
    ℕ → ℕ → SpaceS → Option SpaceS
  | _, 0, s => some s
  | t, n + 1, s =>
    match runIteration f p eta (draws t) s with
    | none => none
    | some s1 => runLoop f p eta draws (t + 1) n s1

/-- `FPA.run`: one initial evaluation pass, then `n_iterations` iterations of
update → clamp → evaluate. -/
def FPA.run (f : List ℚ → ℚ) (p eta : ℚ) (draws : ℕ → ℕ → Draw)
    (s : SpaceS) : Option SpaceS :=
  runLoop f p eta draws 0 s.n_iterations (evalSpace f s)

/-- The tunables of the FPA optimizer together with the `built` flag. -/
structure FPAParams where
  beta : ℚ
  eta : ℚ
  p : ℚ
  built : Bool
deriving DecidableEq

/-- The state `FPA.__init__` reaches just before calling `_build`: the three
defaults are assigned and the class is not yet built. -/
def initParams : FPAParams :=
  { beta := 3 / 2, eta := 1 / 5, p := 4 / 5, built := false }

/-- Python dict lookup on the hyperparameter mapping (`hyperparams[key]` for a
key with `key in hyperparams`). -/
def dictLookup (d : List (String × ℚ)) (k : String) : Option ℚ :=
  (d.find? (fun kv => kv.1 = k)).map (fun kv => kv.2)

/-- `FPA._build`: when the mapping is truthy (present and non-empty), each of
the recognized keys present overrides the matching attribute; any other key is
never consulted; `built` is set in every case. -/
def FPA.build (hyperparams : Option (List (String × ℚ))) (s : FPAParams) : FPAParams :=
  let truthy := match hyperparams with
    | none => false
    | some hp => decide (hp ≠ [])
  let hp := hyperparams.getD []
  let s1 :=
    if truthy then
      let sb := match dictLookup hp ("beta") with
        | some v => { s with beta := v }
        | none => s
      let se := match dictLookup hp ("eta") with
        | some v => { sb with eta := v }
        | none => sb
      match dictLookup hp ("p") with
        | some v => { se with p := v }
        | none => se
    else s
  { s1 with built := true }

/-- `FPA.__init__`: assign the defaults, then `_build` the received mapping. -/
def FPA.init (hyperparams : Option (List (String × ℚ))) : FPAParams :=
  FPA.build hyperparams initParams

/-!
Heap model of `_evaluate`, for the aliasing claim about `copy.deepcopy`.
Python objects live in a store (a list of `Agent` records indexed by object
id); `space.agents` is a list of ids, `space.best_agent` an id.  Attribute
assignment mutates the record behind an id; `copy.deepcopy` allocates a fresh
id holding a copy of the record.
-/

/-- The body of `_evaluate`'s loop in the heap model: possibly rewrite the
agent's `fit` in place, then, when the agent beats the best, allocate a fresh
object for the deep copy (and copy the position again, as the source does) and
repoint `best` at it. -/
def evaluateHStep (f : List ℚ → ℚ) (store : List Agent) (bestId id : ℕ) :
    List Agent × ℕ :=
  match store[id]? with
  | none => (store, bestId)
  | some a =>
    let fit := f a.position
    let store1 := if fit < a.fit then store.set id { a with fit := fit } else store
    match store1[id]?, store1[bestId]? with
    | some a1, some b =>
      if a1.fit < b.fit then
        let newId := store1.length
        let store2 := store1 ++ [a1]
        let store3 := store2.set newId { a1 with position := a1.position }
        (store3, newId)
      else (store1, bestId)
    | _, _ => (store1, bestId)

/-- `FPA._evaluate` in the heap model: fold the per-agent step over the list of
agent ids. -/
def evaluateH (f : List ℚ → ℚ) (store : List Agent) (agentIds : List ℕ)
    (bestId : ℕ) : List Agent × ℕ :=
  agentIds.foldl (fun sb id => evaluateHStep f sb.1 sb.2 id) (store, bestId)

/-- `agent.position = ...` in the heap model: mutate the position of the
record behind `id` in place. -/
def setPosition (store : List Agent) (id : ℕ) (pos : List ℚ) : List Agent :=
  match store[id]? with
  | none => store
  | some a => store.set id { a with position := pos }

/-! ### Helper lemmas -/

theorem nth_lt (l : List ℚ) (k : ℕ) (h : k < l.length) : nth l k = l[k] := by
  simp [nth, List.getElem?_eq_getElem h]

theorem nth_zipWith (f : ℚ → ℚ → ℚ) (l1 l2 : List ℚ) (k : ℕ)
    (h1 : k < l1.length) (h2 : k < l2.length) :
    nth (List.zipWith f l1 l2) k = f (nth l1 k) (nth l2 k) := by
  have hz : k < (List.zipWith f l1 l2).length := by
    simp only [List.length_zipWith]; omega
  rw [nth_lt _ _ hz, nth_lt _ _ h1, nth_lt _ _ h2]
  exact List.getElem_zipWith

theorem nth_step_levy (levy : ℕ → ℚ) (n k : ℕ) (hk : k < n) :
    nth ((List.range n).map levy) k = levy k := by
  have hm : k < ((List.range n).map levy).length := by simpa using hk
  rw [nth_lt _ _ hm]
  simp

theorem nth_map (g : ℚ → ℚ) (l : List ℚ) (k : ℕ) (h : k < l.length) :
    nth (l.map g) k = g (nth l k) := by
  have hm : k < (l.map g).length := by simpa using h
  rw [nth_lt _ _ hm, nth_lt _ _ h]
  simp

theorem set_self_of_getElem? {α : Type} (l : List α) (i : ℕ) (x : α)
    (h : l[i]? = some x) : l.set i x = l := by
  apply List.ext_getElem?
  intro n
  by_cases hn : i = n
  · subst hn
    have hi : i < l.length := by
      by_contra hc
      push_neg at hc
      rw [List.getElem?_eq_none hc] at h
      exact Option.noConfusion h
    rw [List.getElem?_set_self hi, h]
  · rw [List.getElem?_set_ne hn]

theorem length_levy_flight (apos bpos : List ℚ) (levy : ℕ → ℚ) (eta : ℚ)
    (hb : bpos.length = apos.length) :
    (levy_flight apos bpos levy eta).length = apos.length := by
  simp [levy_flight, hb]

theorem nth_levy_flight (apos bpos : List ℚ) (levy : ℕ → ℚ) (eta : ℚ) (k : ℕ)
    (hk : k < apos.length) (hb : bpos.length = apos.length) :
    nth (levy_flight apos bpos levy eta) k =
      nth apos k + (levy k * eta) * (nth bpos k - nth apos k) := by
  simp only [levy_flight]
  rw [nth_zipWith _ _ _ _ hk (by simp [hb]; omega)]
  rw [nth_zipWith _ _ _ _ (by simpa using hk) (by simp [hb]; omega)]
  rw [nth_zipWith _ _ _ _ (by omega : k < bpos.length) hk]
  rw [nth_map _ _ _ (by simpa using hk)]
  rw [nth_step_levy levy _ _ hk]

theorem updateSweep_oob (p eta : ℚ) (best : Agent) (draws : ℕ → Draw)
    (fuel j : ℕ) (ag : List Agent) (h : ag.length ≤ j) :
    updateSweep p eta best draws j fuel ag = some ag := by
  cases fuel with
  | zero => rfl
  | succ fuel => simp [updateSweep, List.getElem?_eq_none h]

theorem updateSweep_length (p eta : ℚ) (best : Agent) (draws : ℕ → Draw) :
    ∀ (fuel j : ℕ) (ag res : List Agent),
      updateSweep p eta best draws j fuel ag = some res →
      res.length = ag.length := by
  intro fuel
  induction fuel with
  | zero =>
    intro j ag res h
    simp only [updateSweep, Option.some.injEq] at h
    rw [← h]
  | succ fuel ih =>
    intro j ag res h
    simp only [updateSweep] at h
    split at h
    · simp only [Option.some.injEq] at h
      rw [← h]
    · split at h
      · exact Option.noConfusion h
      · have hlen := ih (j + 1) _ res h
        simpa using hlen

theorem updateSweep_stable (p eta : ℚ) (best : Agent) (draws : ℕ → Draw) :
    ∀ (fuel j : ℕ) (ag res : List Agent),
      updateSweep p eta best draws j fuel ag = some res →
      ∀ k, k < j → res[k]? = ag[k]? := by
  intro fuel
  induction fuel with
  | zero =>
    intro j ag res h k hk
    simp only [updateSweep, Option.some.injEq] at h
    rw [← h]
  | succ fuel ih =>
    intro j ag res h k hk
    simp only [updateSweep] at h
    split at h
    · simp only [Option.some.injEq] at h
      rw [← h]
    · split at h
      · exact Option.noConfusion h
      · have hst := ih (j + 1) _ res h k (by omega)
        rw [hst, List.getElem?_set_ne (by omega : j ≠ k)]

theorem updateSweep_split (p eta : ℚ) (best : Agent) (draws : ℕ → Draw) :
    ∀ (f1 f2 j : ℕ) (ag : List Agent),
      updateSweep p eta best draws j (f1 + f2) ag =
        (updateSweep p eta best draws j f1 ag).bind
          (updateSweep p eta best draws (j + f1) f2) := by
  intro f1
  induction f1 with
  | zero =>
    intro f2 j ag
    simp [updateSweep]
  | succ f1 ih =>
    intro f2 j ag
    have he : f1 + 1 + f2 = (f1 + f2) + 1 := by omega
    rw [he]
    simp only [updateSweep]
    split
    · rename_i hag
      have hlen : ag.length ≤ j := List.getElem?_eq_none_iff.mp hag
      have hoob := updateSweep_oob p eta best draws f2 (j + (f1 + 1)) ag (by omega)
      simp [hoob]
    · split
      · simp
      · rw [ih f2 (j + 1) _]
        have he2 : j + 1 + f1 = j + (f1 + 1) := by omega
        rw [he2]

theorem updateSweep_map_fit (p eta : ℚ) (best : Agent) (draws : ℕ → Draw) :
    ∀ (fuel j : ℕ) (ag res : List Agent),
      updateSweep p eta best draws j fuel ag = some res →
      res.map Agent.fit = ag.map Agent.fit := by
  intro fuel
  induction fuel with
  | zero =>
    intro j ag res h
    simp only [updateSweep, Option.some.injEq] at h
    rw [← h]
  | succ fuel ih =>
    intro j ag res h
    simp only [updateSweep] at h
    split at h
    · simp only [Option.some.injEq] at h
      rw [← h]
    · rename_i a hag
      split at h
      · exact Option.noConfusion h
      · have hmap := ih (j + 1) _ res h
        rw [hmap, List.map_set]
        apply set_self_of_getElem?
        simp [hag]

theorem lt_of_getElem?_some {α : Type} (l : List α) (i : ℕ) (x : α)
    (h : l[i]? = some x) : i < l.length := by
  by_contra hc
  push_neg at hc
  rw [List.getElem?_eq_none hc] at h
  exact Option.noConfusion h

theorem sample2_spec {α : Type} (l : List α) (t1 t2 : ℕ) (fl : α × α)
    (h : sample2 l t1 t2 = some fl) :
    2 ≤ l.length ∧
    ∃ (i1 i2 : ℕ) (h1 : i1 < l.length) (h2 : i2 < l.length), i1 ≠ i2 ∧
      fl = (l.get ⟨i1, h1⟩, l.get ⟨i2, h2⟩) := by
  simp only [sample2] at h
  split at h
  · rename_i h2
    refine ⟨h2, ?_⟩
    simp only [Option.some.injEq] at h
    have hi : t1 % l.length < l.length := Nat.mod_lt _ (by omega)
    have hj0 : t2 % (l.length - 1) < l.length - 1 := Nat.mod_lt _ (by omega)
    by_cases hc : t2 % (l.length - 1) < t1 % l.length
    · refine ⟨t1 % l.length, t2 % (l.length - 1), hi, by omega, by omega, ?_⟩
      rw [← h]
      simp [if_pos hc]
    · refine ⟨t1 % l.length, t2 % (l.length - 1) + 1, hi, by omega, by omega, ?_⟩
      rw [← h]
      simp [if_neg hc]
  · exact Option.noConfusion h

/-- What one agent's update computes, in both branches: the position assigned
is the old position plus the helper's result, and the helper's result is the
old position plus the branch's delta. -/
theorem updateAgent_spec (agents : List Agent) (a best : Agent) (p eta : ℚ)
    (d : Draw) (pos : List ℚ)
    (hup : updateAgent agents a best p eta d = some pos)
    (hbest : best.position.length = a.position.length)
    (hall : ∀ b ∈ agents, b.position.length = a.position.length) :
    pos.length = a.position.length ∧
    (if d.r > p then
      ∀ k, k < a.position.length →
        nth pos k = nth a.position k + (nth a.position k +
          eta * d.levy k * (nth best.position k - nth a.position k))
    else
      ∃ (i1 i2 : ℕ) (h1 : i1 < agents.length) (h2 : i2 < agents.length), i1 ≠ i2 ∧
        sample2 agents d.t1 d.t2 =
          some (agents.get ⟨i1, h1⟩, agents.get ⟨i2, h2⟩) ∧
        ∀ k, k < a.position.length →
          nth pos k = nth a.position k + (nth a.position k +
            d.eps * (nth (agents.get ⟨i1, h1⟩).position k -
              nth (agents.get ⟨i2, h2⟩).position k))) := by
  simp only [updateAgent] at hup
  by_cases hr : d.r > p
  · rw [if_pos hr] at hup
    rw [if_pos hr]
    simp only [Option.some.injEq] at hup
    have hlev := length_levy_flight a.position best.position d.levy eta hbest
    constructor
    · rw [← hup]
      simp [hlev]
    · intro k hk
      rw [← hup]
      rw [nth_zipWith _ _ _ _ hk (by omega)]
      rw [nth_levy_flight _ _ _ _ _ hk hbest]
      ring
  · rw [if_neg hr] at hup
    rw [if_neg hr]
    split at hup
    · exact Option.noConfusion hup
    · rename_i lp hlp
      simp only [Option.some.injEq] at hup
      simp only [local_pollination] at hlp
      split at hlp
      · exact Option.noConfusion hlp
      · rename_i fl hs
        simp only [Option.some.injEq] at hlp
        obtain ⟨h2len, i1, i2, h1, h2, hne, hfl⟩ := sample2_spec agents d.t1 d.t2 fl hs
        have hf1 : fl.1.position.length = a.position.length :=
          hall _ (hfl ▸ List.get_mem agents i1 h1)
        have hf2 : fl.2.position.length = a.position.length :=
          hall _ (hfl ▸ List.get_mem agents i2 h2)
        have hsub : (List.zipWith (fun x y => x - y) fl.1.position fl.2.position).length
            = a.position.length := by simp [hf1, hf2]
        have hlp_len : lp.length = a.position.length := by
          rw [← hlp]
          simp [hsub]
        constructor
        · rw [← hup]
          simp [hlp_len]
        · refine ⟨i1, i2, h1, h2, hne, ?_, ?_⟩
          · rw [hs, hfl]
          · intro k hk
            rw [← hup]
            rw [nth_zipWith _ _ _ _ hk (by omega)]
            rw [← hlp]
            rw [nth_zipWith _ _ _ _ hk (by rw [List.length_map]; omega)]
            rw [nth_map _ _ _ (by omega)]
            rw [nth_zipWith _ _ _ _ (by omega) (by omega)]
            have e1 : nth fl.1.position k = nth (agents.get ⟨i1, h1⟩).position k := by
              rw [hfl]
            have e2 : nth fl.2.position k = nth (agents.get ⟨i2, h2⟩).position k := by
              rw [hfl]
            rw [e1, e2]
            ring

/-! ### Claim theorems -/

/-- C1: for the agent processed at index `i` in one sweep of the FPA update,
in both branches the new position is the old position plus the step helper's
result, which itself already contains the old position: elementwise
`new = old + (old + delta)`, with `delta = eta * levy * (best - old)` in the
global branch and `delta = eps * (j.position - k.position)` in the local
branch. -/
theorem fpa_update_double_add (p eta : ℚ) (best : Agent) (draws : ℕ → Draw)
    (i fuel : ℕ) (agents res : List Agent) (a : Agent)
    (hrun : updateSweep p eta best draws i (fuel + 1) agents = some res)
    (ha : agents[i]? = some a)
    (hbest : best.position.length = a.position.length)
    (hall : ∀ b ∈ agents, b.position.length = a.position.length) :
    ∃ b, res[i]? = some b ∧ b.fit = a.fit ∧
      b.position.length = a.position.length ∧
      (if (draws i).r > p then
        ∀ k, k < a.position.length →
          nth b.position k = nth a.position k + (nth a.position k +
            eta * (draws i).levy k * (nth best.position k - nth a.position k))
      else
        ∃ (i1 i2 : ℕ) (h1 : i1 < agents.length) (h2 : i2 < agents.length),
          i1 ≠ i2 ∧
          sample2 agents (draws i).t1 (draws i).t2 =
            some (agents.get ⟨i1, h1⟩, agents.get ⟨i2, h2⟩) ∧
          ∀ k, k < a.position.length →
            nth b.position k = nth a.position k + (nth a.position k +
              (draws i).eps * (nth (agents.get ⟨i1, h1⟩).position k -
                nth (agents.get ⟨i2, h2⟩).position k))) := by
  simp only [updateSweep, ha] at hrun
  split at hrun
  · exact Option.noConfusion hrun
  · rename_i pos hup
    have hi : i < agents.length := lt_of_getElem?_some agents i a ha
    have hres : res[i]? = some { a with position := pos } := by
      have hst := updateSweep_stable p eta best draws fuel (i + 1) _ res hrun i
        (by omega)
      rw [hst, List.getElem?_set_self hi]
    obtain ⟨hlen, hspec⟩ := updateAgent_spec agents a best p eta (draws i) pos
      hup hbest hall
    exact ⟨{ a with position := pos }, hres, rfl, hlen, hspec⟩

theorem fpa_update_double_add_witness :
    ∃ b, ([(⟨[0], 0⟩ : Agent)] : List Agent)[0]? = some b ∧ b.fit = 0 := by
  obtain ⟨b, hb, hfit, -⟩ := fpa_update_double_add (1 / 2) 1 ⟨[1], 0⟩
    (fun _ => ⟨1, fun _ => 0, 0, 0, 0⟩) 0 0 [⟨[0], 0⟩] [⟨[0], 0⟩] ⟨[0], 0⟩
    (by norm_num [updateSweep, updateAgent, levy_flight, List.range_succ])
    (by norm_num)
    (by norm_num)
    (by intro b hb; rw [List.mem_singleton] at hb; rw [hb])
  exact ⟨b, hb, hfit⟩

/-- C2 counterexample: on a two-agent population whose first agent takes a
global step and whose second agent then pollinates locally, the sweep as
implemented and the sweep reading the start-of-iteration snapshot disagree,
so local pollination does not use the snapshot. -/
theorem fpa_snapshot_counterexample :
    FPA.update (1 / 2) 1 ⟨[2], 0⟩
      (fun n => if n = 0 then ⟨1, fun _ => 1, 0, 0, 0⟩ else ⟨0, fun _ => 0, 1, 0, 0⟩)
      [⟨[0], 0⟩, ⟨[1], 0⟩] ≠
    updateSnapshot (1 / 2) 1 ⟨[2], 0⟩
      (fun n => if n = 0 then ⟨1, fun _ => 1, 0, 0, 0⟩ else ⟨0, fun _ => 0, 1, 0, 0⟩)
      [⟨[0], 0⟩, ⟨[1], 0⟩] := by
  have h1 : FPA.update (1 / 2) 1 (⟨[2], 0⟩ : Agent)
      (fun n => if n = 0 then ⟨1, fun _ => 1, 0, 0, 0⟩ else ⟨0, fun _ => 0, 1, 0, 0⟩)
      [⟨[0], 0⟩, ⟨[1], 0⟩] = some [⟨[2], 0⟩, ⟨[3], 0⟩] := by
    norm_num [FPA.update, updateSweep, updateAgent, levy_flight,
      local_pollination, sample2, List.range_succ]
  have h2 : updateSnapshot (1 / 2) 1 (⟨[2], 0⟩ : Agent)
      (fun n => if n = 0 then ⟨1, fun _ => 1, 0, 0, 0⟩ else ⟨0, fun _ => 0, 1, 0, 0⟩)
      [⟨[0], 0⟩, ⟨[1], 0⟩] = some [⟨[2], 0⟩, ⟨[1], 0⟩] := by
    norm_num [updateSnapshot, updateSweepSnapshot, updateAgent, levy_flight,
      local_pollination, sample2, List.range_succ]
  rw [h1, h2]
  simp only [ne_eq, Option.some.injEq, List.cons.injEq, Agent.mk.injEq]
  norm_num

/-- C2 amended: during one FPA update sweep, the two agents sampled for an
agent's local pollination are taken from the live, partially rewritten
population (the state `mid` reached after the earlier agents of the same sweep
were updated), not from the snapshot at the start of the iteration. -/
theorem fpa_local_sampling_live (p eta : ℚ) (best : Agent) (draws : ℕ → Draw)
    (agents mid res : List Agent) (i : ℕ) (a : Agent)
    (hfull : FPA.update p eta best draws agents = some res)
    (hmid : updateSweep p eta best draws 0 i agents = some mid)
    (hi : i < agents.length)
    (ha : mid[i]? = some a)
    (hlocal : ¬ (draws i).r > p)
    (hbest : best.position.length = a.position.length)
    (hall : ∀ b ∈ mid, b.position.length = a.position.length) :
    ∃ (i1 i2 : ℕ) (h1 : i1 < mid.length) (h2 : i2 < mid.length), i1 ≠ i2 ∧
      sample2 mid (draws i).t1 (draws i).t2 =
        some (mid.get ⟨i1, h1⟩, mid.get ⟨i2, h2⟩) ∧
      ∃ b, res[i]? = some b ∧ b.position.length = a.position.length ∧
        ∀ k, k < a.position.length →
          nth b.position k = nth a.position k + (nth a.position k +
            (draws i).eps * (nth (mid.get ⟨i1, h1⟩).position k -
              nth (mid.get ⟨i2, h2⟩).position k)) := by
  have hsplit := updateSweep_split p eta best draws i (agents.length - i) 0 agents
  have he : i + (agents.length - i) = agents.length := by omega
  rw [he] at hsplit
  rw [FPA.update] at hfull
  rw [hsplit, hmid] at hfull
  simp only [Option.some_bind, Nat.zero_add] at hfull
  have he2 : agents.length - i = (agents.length - i - 1) + 1 := by omega
  rw [he2] at hfull
  simp only [updateSweep, ha] at hfull
  split at hfull
  · exact Option.noConfusion hfull
  · rename_i pos hup
    have himid : i < mid.length := lt_of_getElem?_some mid i a ha
    have hres : res[i]? = some { a with position := pos } := by
      have hst := updateSweep_stable p eta best draws (agents.length - i - 1)
        (i + 1) _ res hfull i (by omega)
      rw [hst, List.getElem?_set_self himid]
    obtain ⟨hlen, hspec⟩ := updateAgent_spec mid a best p eta (draws i) pos
      hup hbest hall
    rw [if_neg hlocal] at hspec
    obtain ⟨i1, i2, h1, h2, hne, hs, hform⟩ := hspec
    exact ⟨i1, i2, h1, h2, hne, hs,
      ⟨{ a with position := pos }, hres, hlen, hform⟩⟩

theorem fpa_local_sampling_live_witness :
    ∃ b, ([(⟨[2], 0⟩ : Agent), ⟨[3], 0⟩] : List Agent)[1]? = some b ∧
      b.position.length = 1 := by
  obtain ⟨i1, i2, h1, h2, hne, hs, b, hb, hblen, -⟩ :=
    fpa_local_sampling_live (1 / 2) 1 ⟨[2], 0⟩
      (fun n => if n = 0 then ⟨1, fun _ => 1, 0, 0, 0⟩ else ⟨0, fun _ => 0, 1, 0, 0⟩)
      [⟨[0], 0⟩, ⟨[1], 0⟩] [⟨[2], 0⟩, ⟨[1], 0⟩] [⟨[2], 0⟩, ⟨[3], 0⟩] 1 ⟨[1], 0⟩
      (by norm_num [FPA.update, updateSweep, updateAgent, levy_flight,
        local_pollination, sample2, List.range_succ])
      (by norm_num [updateSweep, updateAgent, levy_flight, List.range_succ])
      (by norm_num)
      (by norm_num)
      (by norm_num)
      (by norm_num)
      (by intro b hb
          rcases List.mem_cons.mp hb with h | h
          · subst h; rfl
          · rw [List.mem_singleton] at h
            subst h; rfl)
  exact ⟨b, hb, hblen⟩

/-- C9: one call to the FPA update mutates only positions — every agent's
`fit` after the call equals its `fit` before the call, whichever branch each
agent took. -/
theorem fpa_update_preserves_fit (p eta : ℚ) (best : Agent) (draws : ℕ → Draw)
    (agents res : List Agent)
    (h : FPA.update p eta best draws agents = some res) :
    res.map Agent.fit = agents.map Agent.fit :=
  updateSweep_map_fit p eta best draws agents.length 0 agents res h

theorem fpa_update_preserves_fit_witness :
    [(⟨[1], 5⟩ : Agent)].map Agent.fit = [(⟨[0], 5⟩ : Agent)].map Agent.fit :=
  fpa_update_preserves_fit (1 / 2) 1 ⟨[1], 0⟩ (fun _ => ⟨1, fun _ => 1, 0, 0, 0⟩)
    [⟨[0], 5⟩] [⟨[1], 5⟩]
    (by norm_num [FPA.update, updateSweep, updateAgent, levy_flight,
      List.range_succ])

/-- C8: local pollination samples two agents at distinct indices (without
replacement) from the full current population — which may include the agent
being updated — and on any population of at least two agents both the sample
and the whole local-pollination step succeed; the model is a total function,
so no resample loop can diverge. -/
theorem fpa_local_sampling_safe (agents : List Agent) (pos : List ℚ)
    (eps : ℚ) (t1 t2 : ℕ) (h2 : 2 ≤ agents.length) :
    (∃ (i1 i2 : ℕ) (hi : i1 < agents.length) (hj : i2 < agents.length),
      i1 ≠ i2 ∧
      sample2 agents t1 t2 = some (agents.get ⟨i1, hi⟩, agents.get ⟨i2, hj⟩)) ∧
    ∃ res, local_pollination agents pos eps t1 t2 = some res := by
  obtain ⟨fl, hfl⟩ : ∃ fl, sample2 agents t1 t2 = some fl := by
    simp only [sample2, dif_pos h2]
    exact ⟨_, rfl⟩
  obtain ⟨-, i1, i2, hi1, hi2, hne, hflp⟩ := sample2_spec agents t1 t2 fl hfl
  refine ⟨⟨i1, i2, hi1, hi2, hne, by rw [hfl, hflp]⟩, ?_⟩
  simp only [local_pollination, hfl]
  exact ⟨_, rfl⟩

theorem fpa_local_sampling_safe_witness :
    ∃ res, local_pollination [⟨[0], 0⟩, ⟨[1], 0⟩] [0] 1 0 0 = some res :=
  (fpa_local_sampling_safe [⟨[0], 0⟩, ⟨[1], 0⟩] [0] 1 0 0 (by simp)).2

/-- C3: within one evaluation pass the best agent's `fit` never increases and,
after the pass, bounds every agent's `fit` from below; along the iteration
loop of a run the best fitness is therefore non-increasing across the sequence
of evaluation passes. -/
theorem fpa_best_fit_monotone (f : List ℚ → ℚ) (p eta : ℚ)
    (draws : ℕ → ℕ → Draw) :
    (∀ agents best, (evaluate f agents best).2.fit ≤ best.fit) ∧
    (∀ agents best, ∀ a ∈ (evaluate f agents best).1,
      (evaluate f agents best).2.fit ≤ a.fit) ∧
    (∀ n t s s1, runLoop f p eta draws t n s = some s1 →
      s1.best_agent.fit ≤ s.best_agent.fit) := by
  have hstep : ∀ best a, (evaluateAgent f best a).2.fit ≤ best.fit ∧
      (evaluateAgent f best a).2.fit ≤ (evaluateAgent f best a).1.fit := by
    intro best a
    simp only [evaluateAgent]
    constructor
    · split_ifs <;> first | rfl | linarith
    · split_ifs <;> first | rfl | linarith
  have hev : ∀ agents best, (evaluate f agents best).2.fit ≤ best.fit ∧
      ∀ a ∈ (evaluate f agents best).1, (evaluate f agents best).2.fit ≤ a.fit := by
    intro agents
    induction agents with
    | nil =>
      intro best
      simp [evaluate]
    | cons a rest ih =>
      intro best
      simp only [evaluate]
      obtain ⟨hrec1, hrec2⟩ := ih (evaluateAgent f best a).2
      obtain ⟨hs1, hs2⟩ := hstep best a
      refine ⟨le_trans hrec1 hs1, ?_⟩
      intro b hb
      simp only [List.mem_cons] at hb
      rcases hb with rfl | hb
      · exact le_trans hrec1 hs2
      · exact hrec2 b hb
  have hit : ∀ (dr : ℕ → Draw) st s1, runIteration f p eta dr st = some s1 →
      s1.best_agent.fit ≤ st.best_agent.fit := by
    intro dr st s1 h
    simp only [runIteration] at h
    split at h
    · exact Option.noConfusion h
    · simp only [Option.some.injEq] at h
      rw [← h]
      simp only [evalSpace]
      exact (hev _ _).1
  refine ⟨fun ag b => (hev ag b).1, fun ag b => (hev ag b).2, ?_⟩
  intro n
  induction n with
  | zero =>
    intro t s s1 h
    simp only [runLoop, Option.some.injEq] at h
    rw [← h]
  | succ n ih =>
    intro t s s1 h
    simp only [runLoop] at h
    split at h
    · exact Option.noConfusion h
    · rename_i s2 h2
      exact le_trans (ih (t + 1) s2 s1 h) (hit _ s s2 h2)

theorem fpa_best_fit_monotone_witness :
    (⟨[], ⟨[], 7⟩, [], [], 0⟩ : SpaceS).best_agent.fit ≤
      (⟨[], ⟨[], 7⟩, [], [], 0⟩ : SpaceS).best_agent.fit :=
  (fpa_best_fit_monotone (fun _ => 0) (1 / 2) (1 / 5)
      (fun _ _ => ⟨0, fun _ => 0, 0, 0, 0⟩)).2.2 0 0
    ⟨[], ⟨[], 7⟩, [], [], 0⟩ ⟨[], ⟨[], 7⟩, [], [], 0⟩ rfl

/-- C4 counterexample: when the objective's value at the current position is
worse than the recorded `fit`, `_evaluate` keeps the stale `fit`, so after the
pass the agent's `fit` is not the objective's value at its current position. -/
theorem fpa_evaluate_stale_fit_counterexample :
    ¬ (∀ (f : List ℚ → ℚ) (agents : List Agent) (best : Agent),
        ∀ a ∈ (evaluate f agents best).1, a.fit = f a.position) := by
  intro h
  have hmem : (⟨[0], -1⟩ : Agent) ∈
      (evaluate (fun _ => 0) [⟨[0], -1⟩] ⟨[], -2⟩).1 := by
    norm_num [evaluate, evaluateAgent]
  have h2 := h (fun _ => 0) [⟨[0], -1⟩] ⟨[], -2⟩ ⟨[0], -1⟩ hmem
  norm_num at h2

/-- C4 amended: after an evaluation pass every agent keeps its position and
its `fit` becomes `min (f position) (previous fit)`: the newly computed
objective value is recorded exactly when it improves the previously recorded
`fit`, and the old value is kept when the new one is worse. -/
theorem fpa_evaluate_fit_min (f : List ℚ → ℚ) (agents : List Agent)
    (best : Agent) :
    (evaluate f agents best).1 =
      agents.map (fun a => { a with fit := min (f a.position) a.fit }) := by
  induction agents generalizing best with
  | nil => simp [evaluate]
  | cons a rest ih =>
    simp only [evaluate, List.map_cons]
    congr 1
    · simp only [evaluateAgent]
      split_ifs with h1
      · rw [min_eq_left (le_of_lt h1)]
      · rw [min_eq_right (not_lt.mp h1)]
    · exact ih _

theorem evaluateHStep_growth (f : List ℚ → ℚ) (store : List Agent)
    (bestId id : ℕ) :
    store.length ≤ (evaluateHStep f store bestId id).1.length ∧
    ((evaluateHStep f store bestId id).2 = bestId ∨
      store.length ≤ (evaluateHStep f store bestId id).2) := by
  simp only [evaluateHStep]
  split
  · exact ⟨le_rfl, Or.inl rfl⟩
  · rename_i a ha
    generalize hst : (if f a.position < a.fit then
        store.set id { a with fit := f a.position } else store) = store1
    have hlen : store1.length = store.length := by
      rw [← hst]
      split_ifs <;> simp
    split
    · split_ifs with hf
      · refine ⟨?_, Or.inr ?_⟩
        · rw [List.length_set, List.length_append, hlen]
          simp
        · rw [hlen]
      · exact ⟨le_of_eq hlen.symm, Or.inl rfl⟩
    · exact ⟨le_of_eq hlen.symm, Or.inl rfl⟩

theorem evaluateH_inv (f : List ℚ → ℚ) (fullIds : List ℕ) (L : ℕ)
    (hL : ∀ id ∈ fullIds, id < L) :
    ∀ (l : List ℕ) (store : List Agent) (bestId : ℕ),
      L ≤ store.length → bestId ∉ fullIds →
      L ≤ (evaluateH f store l bestId).1.length ∧
      (evaluateH f store l bestId).2 ∉ fullIds := by
  intro l
  induction l with
  | nil =>
    intro store bestId h1 h2
    exact ⟨h1, h2⟩
  | cons id rest ih =>
    intro store bestId h1 h2
    simp only [evaluateH, List.foldl_cons]
    obtain ⟨g1, g2⟩ := evaluateHStep_growth f store bestId id
    have ihr := ih (evaluateHStep f store bestId id).1
      (evaluateHStep f store bestId id).2 (le_trans h1 g1) ?hbest
    · exact ihr
    case hbest =>
      rcases g2 with h | h
      · rw [h]; exact h2
      · intro hmem
        have := hL _ hmem
        omega

/-- C5: when evaluation finds an agent beating the current best, the best is
repointed at a freshly allocated deep copy: after an evaluation pass the best
id lies outside the live agent ids, so mutating any live agent's position
afterwards leaves the recorded best agent's record (position and fit)
untouched. -/
theorem fpa_best_agent_isolation (f : List ℚ → ℚ) (store : List Agent)
    (agentIds : List ℕ) (bestId : ℕ)
    (hb : bestId ∉ agentIds) (hvalid : ∀ id ∈ agentIds, id < store.length) :
    (evaluateH f store agentIds bestId).2 ∉ agentIds ∧
    ∀ id ∈ agentIds, ∀ pos,
      (setPosition (evaluateH f store agentIds bestId).1 id
          pos)[(evaluateH f store agentIds bestId).2]? =
        (evaluateH f store agentIds bestId).1[(evaluateH f store agentIds bestId).2]? := by
  obtain ⟨h1, h2⟩ := evaluateH_inv f agentIds store.length hvalid agentIds
    store bestId le_rfl hb
  refine ⟨h2, ?_⟩
  intro id hid pos
  have hne : id ≠ (evaluateH f store agentIds bestId).2 := by
    intro he
    exact h2 (he ▸ hid)
  simp only [setPosition]
  split
  · rfl
  · rw [List.getElem?_set_ne hne]

theorem fpa_best_agent_isolation_witness :
    (evaluateH (fun _ => 3) [⟨[0], 5⟩, ⟨[1], 10⟩] [0] 1).2 ∉ ([0] : List ℕ) :=
  (fpa_best_agent_isolation (fun _ => 3) [⟨[0], 5⟩, ⟨[1], 10⟩] [0] 1
    (by decide) (by decide)).1

/-- C6: `run` is exactly one initial evaluation pass followed by the iteration
loop; each loop iteration is update, then clamp to bounds, then evaluate, in
that order; and with `n_iterations = 0` the run is the initial evaluation
alone — no update is ever invoked (its result does not even depend on `p`,
`eta` or the draws). -/
theorem fpa_run_structure (f : List ℚ → ℚ) (p eta : ℚ) (draws : ℕ → ℕ → Draw)
    (s : SpaceS) :
    FPA.run f p eta draws s =
      runLoop f p eta draws 0 s.n_iterations (evalSpace f s) ∧
    (∀ t n st, runLoop f p eta draws t (n + 1) st =
      (FPA.update p eta st.best_agent (draws t) st.agents).bind (fun ags =>
        runLoop f p eta draws (t + 1) n
          (evalSpace f { st with agents := check_bound_limits ags st.lb st.ub }))) ∧
    (s.n_iterations = 0 → ∀ p2 eta2 draws2,
      FPA.run f p2 eta2 draws2 s = some (evalSpace f s)) := by
  refine ⟨rfl, ?_, ?_⟩
  · intro t n st
    simp only [runLoop, runIteration]
    cases FPA.update p eta st.best_agent (draws t) st.agents <;> simp
  · intro h0 p2 eta2 draws2
    simp [FPA.run, h0, runLoop]

theorem fpa_run_structure_witness :
    FPA.run (fun _ => 0) (1 / 2) (1 / 5) (fun _ _ => ⟨0, fun _ => 0, 0, 0, 0⟩)
      ⟨[], ⟨[], 0⟩, [], [], 0⟩ =
      some (evalSpace (fun _ => 0) ⟨[], ⟨[], 0⟩, [], [], 0⟩) :=
  (fpa_run_structure (fun _ => 0) (1 / 2) (1 / 5)
      (fun _ _ => ⟨0, fun _ => 0, 0, 0, 0⟩) ⟨[], ⟨[], 0⟩, [], [], 0⟩).2.2
    rfl (1 / 2) (1 / 5) (fun _ _ => ⟨0, fun _ => 0, 0, 0, 0⟩)

theorem build_eq (hp : List (String × ℚ)) (s : FPAParams) (hne : hp ≠ []) :
    FPA.build (some hp) s =
      { beta := (dictLookup hp ("beta")).getD s.beta,
        eta := (dictLookup hp ("eta")).getD s.eta,
        p := (dictLookup hp ("p")).getD s.p,
        built := true } := by
  simp only [FPA.build, Option.getD_some]
  rw [if_pos (by simpa using hne)]
  cases dictLookup hp ("beta") <;> cases dictLookup hp ("eta") <;>
    cases dictLookup hp ("p") <;> rfl

/-- C7: `_build` merges the received mapping with the defaults
`beta = 3/2`, `eta = 1/5`, `p = 4/5`: a recognized key present in the mapping
overrides its default, a recognized key absent from the mapping (whatever
other keys it holds) leaves the default, a missing mapping keeps all three
defaults, and `built` is set in every case. -/
theorem fpa_build_merges_defaults :
    (∀ hp v, dictLookup hp ("beta") = some v → (FPA.init (some hp)).beta = v) ∧
    (∀ hp v, dictLookup hp ("eta") = some v → (FPA.init (some hp)).eta = v) ∧
    (∀ hp v, dictLookup hp ("p") = some v → (FPA.init (some hp)).p = v) ∧
    (∀ hp, dictLookup hp ("beta") = none → (FPA.init (some hp)).beta = 3 / 2) ∧
    (∀ hp, dictLookup hp ("eta") = none → (FPA.init (some hp)).eta = 1 / 5) ∧
    (∀ hp, dictLookup hp ("p") = none → (FPA.init (some hp)).p = 4 / 5) ∧
    FPA.init none = { beta := 3 / 2, eta := 1 / 5, p := 4 / 5, built := true } ∧
    (∀ h, (FPA.init h).built = true) := by
  have hcore : ∀ hp, hp ≠ [] → FPA.init (some hp) =
      { beta := (dictLookup hp ("beta")).getD (3 / 2),
        eta := (dictLookup hp ("eta")).getD (1 / 5),
        p := (dictLookup hp ("p")).getD (4 / 5),
        built := true } := by
    intro hp hne
    exact build_eq hp initParams hne
  refine ⟨?_, ?_, ?_, ?_, ?_, ?_, rfl, ?_⟩
  · intro hp v hv
    have hne : hp ≠ [] := by
      intro h
      subst h
      simp [dictLookup] at hv
    rw [hcore hp hne]
    simp [hv]
  · intro hp v hv
    have hne : hp ≠ [] := by
      intro h
      subst h
      simp [dictLookup] at hv
    rw [hcore hp hne]
    simp [hv]
  · intro hp v hv
    have hne : hp ≠ [] := by
      intro h
      subst h
      simp [dictLookup] at hv
    rw [hcore hp hne]
    simp [hv]
  · intro hp hv
    by_cases hne : hp = []
    · subst hne
      rfl
    · rw [hcore hp hne]
      simp [hv]
  · intro hp hv
    by_cases hne : hp = []
    · subst hne
      rfl
    · rw [hcore hp hne]
      simp [hv]
  · intro hp hv
    by_cases hne : hp = []
    · subst hne
      rfl
    · rw [hcore hp hne]
      simp [hv]
  · intro h
    cases h with
    | none => rfl
    | some hp =>
      by_cases hne : hp = []
      · subst hne
        rfl
      · rw [hcore hp hne]

theorem fpa_build_merges_defaults_witness :
    (FPA.init (some [("beta", 2), ("junk", 9)])).beta = 2 :=
  fpa_build_merges_defaults.1 [("beta", 2), ("junk", 9)] 2 (by rfl)

/-- C10: because `_build` tests the mapping for truthiness rather than for
absence, an empty mapping behaves exactly like no mapping at all: the three
defaults survive and `built` is still set. -/
theorem fpa_build_empty_dict_like_none :
    FPA.init (some []) = FPA.init none ∧
    (FPA.init (some [])).beta = 3 / 2 ∧
    (FPA.init (some [])).eta = 1 / 5 ∧
    (FPA.init (some [])).p = 4 / 5 ∧
    (FPA.init (some [])).built = true :=
  ⟨rfl, rfl, rfl, rfl, rfl⟩
